import Mathlib

/-! # zstdmt: the gzip-style front end (`programs/main.c`) and the engine contract (`lz4mt.h`)

Shallow embedding of the command-line wrapper and of the multithreaded engine
described by the specification, followed by the properties proved about them.

Conventions of the embedding:

* a C string is the list of its characters before the terminating NUL;
* `int` values are `Int`; where a `size_t` is narrowed to `int` the narrowing is
  written out (`toInt32`), and `size_t` arithmetic is taken modulo `2 ^ 64`;
* results of the C library (`fopen`, `fwrite`, `getchar`) are inputs of the model;
* a destination buffer is its size in bytes; a write past its end is undefined
  behaviour and gives `none`;
* a loop that may run forever returns `Option`, with `none` for divergence.
-/

namespace Zstdmt

/-! ## Constants of `main.c` and `lz4mt.h` -/

/-- Exit code `E_OK` of main.c. -/
def E_OK : Int := 0
/-- Exit code `E_ERROR` of main.c. -/
def E_ERROR : Int := 1
/-- Exit code `E_WARNING` of main.c. -/
def E_WARNING : Int := 2

/-- Mode `-z` (default). -/
def MODE_COMPRESS : Int := 1
/-- Mode `-d`. -/
def MODE_DECOMPRESS : Int := 2
/-- Mode `-l`. -/
def MODE_LIST : Int := 3
/-- Mode `-t`. -/
def MODE_TEST : Int := 4

/-- Bound of the `-i` option. -/
def MAX_ITERATIONS : Int := 1000

/-- Current maximum the library will accept (`lz4mt.h`). -/
def LZ4MT_THREAD_MAX : Int := 128

/-- Modelled from the spec: `platform.h` is not part of the sources; it maps the
generic name `THREAD_MAX` used by main.c to the library maximum, which is 128. -/
def THREAD_MAX : Int := LZ4MT_THREAD_MAX

/-! ## Generic check of parameters (`main`, after option parsing) -/

/-- Options that the generic check of `main` normalises. -/
structure Params where
  opt_level : Int
  opt_threads : Int
  opt_iterations : Int
  deriving DecidableEq, Repr

/-- The generic check of parameters in `main`: three `if / else if` clamps, in
source order. `LEVEL_MIN` and `LEVEL_MAX` come from the missing `platform.h` and
are parameters. -/
def check_params (LEVEL_MIN LEVEL_MAX : Int) (p : Params) : Params :=
  let opt_level :=
    if p.opt_level < LEVEL_MIN then LEVEL_MIN
    else if p.opt_level > LEVEL_MAX then LEVEL_MAX
    else p.opt_level
  let opt_threads :=
    if p.opt_threads < 1 then 1
    else if p.opt_threads > THREAD_MAX then THREAD_MAX
    else p.opt_threads
  let opt_iterations :=
    if p.opt_iterations < 1 then 1
    else if p.opt_iterations > MAX_ITERATIONS then MAX_ITERATIONS
    else p.opt_iterations
  { opt_level := opt_level, opt_threads := opt_threads, opt_iterations := opt_iterations }

/-! ## The I/O callbacks handed to the engine -/

/-- Buffer `MT_Buffer`, that is `LZ4MT_Buffer`: the data and its length field. -/
structure MT_Buffer where
  buf : List Nat
  size : Nat
  deriving DecidableEq, Repr

/-- Width of `size_t` arithmetic. -/
def SIZE_MOD : Nat := 2 ^ 64

/-- Result of a callback: the returned `int`, the buffer as the callback left it,
and the byte counter it updates. -/
structure CallbackResult where
  ret : Int
  buffer : MT_Buffer
  counter : Nat
  deriving DecidableEq, Repr

/-- Callback `WriteData`. `done` is what `fwrite(out->buf, 1, out->size, fd)`
returned; it is stored in `out->size`, added to `bytes_written`, and the
function returns 0. -/
def WriteData (done : Nat) (out : MT_Buffer) (bytes_written : Nat) : CallbackResult :=
  { ret := 0
    buffer := { out with size := done }
    counter := (bytes_written + done) % SIZE_MOD }

/-- Callback `ReadData`. `data` is what `fread(in->buf, 1, in->size, fd)` stored
at the start of the buffer and `done = data.length` what it returned; it is
stored in `in->size`, added to `bytes_read`, and the function returns 0. -/
def ReadData (data : List Nat) (inb : MT_Buffer) (bytes_read : Nat) : CallbackResult :=
  let done := data.length
  { ret := 0
    buffer := { buf := data ++ inb.buf.drop done, size := done }
    counter := (bytes_read + done) % SIZE_MOD }

/-! ## Suffix handling -/

/-- Length of a C string. -/
def strlen (s : List Char) : Nat := s.length

/-- Narrowing of a `size_t` to a 32-bit `int`, as in `int flen = strlen(..)`. -/
def toInt32 (n : Nat) : Int :=
  let m : Nat := n % 2 ^ 32
  if m < 2 ^ 31 then (m : Int) else (m : Int) - 2 ^ 32

/-- Function `strcmp`: zero exactly when the two strings are equal, otherwise the
sign of the first difference. -/
def strcmp : List Char → List Char → Int
  | [], [] => 0
  | [], _ :: _ => -1
  | _ :: _, [] => 1
  | a :: as, b :: bs => if a = b then strcmp as bs else if a.toNat < b.toNat then -1 else 1

/-- Function `has_suffix` of main.c; `filename + flen - xlen` is the string that
starts `flen - xlen` characters into `filename`. -/
def has_suffix (filename suffix : List Char) : Int :=
  let flen := toInt32 (strlen filename)
  let xlen := toInt32 (strlen suffix)
  if flen < xlen then 0
  else if strcmp (filename.drop (flen - xlen).toNat) suffix = 0 then 1
  else 0

/-- Conversion of an `int` to `size_t`, as in `alloca(fn2len + 1)`. -/
def toSize (x : Int) : Nat := (x % 2 ^ 64).toNat

/-- Function `strcat` on a destination buffer of `size` bytes that holds the
string `dest`: the result and its terminating NUL have to fit. A write past the
end of the buffer is undefined behaviour: `none`. -/
def strcat (size : Nat) (dest src : List Char) : Option (List Char) :=
  if dest.length + src.length + 1 ≤ size then some (dest ++ src) else none

/-- Function `strcpy` into a buffer of `size` bytes: the string and its
terminating NUL have to fit. A write past the end of the buffer is undefined
behaviour: `none`. -/
def strcpy (size : Nat) (src : List Char) : Option (List Char) :=
  if src.length + 1 ≤ size then some src else none

/-- Size of the buffer `fn2` that `treat_file` hands to `add_suffix` and
`remove_suffix` as `newname`: `int fn2len = strlen(filename) + 10;` and
`char *fn2 = alloca(fn2len + 1);`. -/
def fn2_size (filename : List Char) : Nat :=
  let fn2len := toInt32 (strlen filename + 10)
  toSize (fn2len + 1)

/-- Function `add_suffix` of main.c, writing into a buffer `newname` of
`newname_size` bytes: `newname` is emptied, then `filename` and `opt_suffix` are
appended with `strcat`. Returns the content of `newname`, or `none` when a write
goes past the end of the buffer. -/
def add_suffix (opt_suffix filename : List Char) (newname_size : Nat) : Option (List Char) :=
  if newname_size < 1 then none
  else
    let newname : List Char := []
    match strcat newname_size newname filename with
    | none => none
    | some newname => strcat newname_size newname opt_suffix

/-- Function `remove_suffix` of main.c, writing into a buffer `newname` of
`newname_size` bytes. With the suffix present, `filename` is copied and cut at
index `flen - xlen`; otherwise `newname` is emptied and `opt_suffix` and `".out"`
are appended. Returns the content of `newname`, or `none` when a write goes past
the end of the buffer. -/
def remove_suffix (opt_suffix filename : List Char) (newname_size : Nat) :
    Option (List Char) :=
  let flen := toInt32 (strlen filename)
  let xlen := toInt32 (strlen opt_suffix)
  if has_suffix filename opt_suffix ≠ 0 then
    match strcpy newname_size filename with
    | none => none
    | some newname => some (newname.take (flen - xlen).toNat)
  else if newname_size < 1 then none
  else
    let newname : List Char := []
    match strcat newname_size newname opt_suffix with
    | none => none
    | some newname => strcat newname_size newname ".out".toList

/-! ## Overwrite check -/

/-- Outcome of `fopen(filename, "r")` at the top of `check_overwrite`. -/
inductive ProbeResult where
  /-- A stream was returned: the file is there. -/
  | opened
  /-- Result `NULL` with `errno == ENOENT`: no file there. -/
  | enoent
  /-- Result `NULL` with another `errno`: file there, but it can not be opened. -/
  | failed
  deriving DecidableEq, Repr

/-- The question loop `for (;;)` of `check_overwrite`, reading standard input. The
flag is `false` at the `c = getchar()` that follows the prompt and `true` inside
`while (c != '\n' && c != EOF) c = getchar()`. A `y`/`Y` answers 1 and an
`n`/`N` answers 0; any other character discards the rest of the line and asks
again. At end of input `getchar` keeps returning `EOF`, `yes` stays -1 and the
loop never ends: `none`. The result carries the input left unread. -/
def ask_overwrite : Bool → List Char → Option (Int × List Char)
  | _, [] => none
  | false, c :: rest =>
    if c = 'y' ∨ c = 'Y' then some (1, rest)
    else if c = 'n' ∨ c = 'N' then some (0, rest)
    else if c = '\n' then ask_overwrite false rest
    else ask_overwrite true rest
  | true, c :: rest =>
    if c = '\n' then ask_overwrite false rest
    else ask_overwrite true rest

/-- Function `check_overwrite` of main.c: 1 when there is no file, 0 when it is
there but can not be opened, otherwise the answer of the user. The function reads
no option variable. -/
def check_overwrite (probe : ProbeResult) (stdin : List Char) : Option (Int × List Char) :=
  match probe with
  | ProbeResult.enoent => some (1, stdin)
  | ProbeResult.failed => some (0, stdin)
  | ProbeResult.opened => ask_overwrite false stdin

/-! ## Treatment of one file -/

/-- The global variables of main.c that the treatment of a file reads or writes,
with the unread part of standard input. `cctx` and `dctx` record whether the
context pointer is non-null. -/
structure Globals where
  exit_code : Int
  opt_mode : Int
  opt_force : Int
  opt_keep : Int
  global_fout : Int
  errmsg : Option String
  cctx : Bool
  dctx : Bool
  stdin : List Char
  deriving DecidableEq, Repr

/-- What the environment answers while one file is treated. -/
structure FileEnv where
  /-- Whether `fopen(filename, "rb")` returned a stream. -/
  fin_opened : Bool
  /-- Result of `fopen(fn2, "r")` in `check_overwrite`. -/
  probe : ProbeResult
  /-- Whether `fopen(fn2, "wb")` returned a stream. -/
  fout_opened : Bool
  /-- Whether the engine can allocate a context when asked to. -/
  create_ok : Bool
  /-- Error string of the engine run, if `MT_isError(ret)`. -/
  run_error : Option String
  deriving DecidableEq, Repr

/-- Function `do_compress` of main.c: returns the new `errmsg` and whether `cctx`
is set afterwards. -/
def do_compress (errmsg : Option String) (cctx : Bool) (env : FileEnv) :
    Option String × Bool :=
  match errmsg with
  | some e => (some e, cctx)
  | none =>
    let cctx := if !cctx then env.create_ok else cctx
    if !cctx then (some "Allocating compression context failed!", cctx)
    else
      match env.run_error with
      | some e => (some e, cctx)
      | none => (none, cctx)

/-- Function `do_decompress` of main.c: returns the new `errmsg` and whether
`dctx` is set afterwards. -/
def do_decompress (errmsg : Option String) (dctx : Bool) (env : FileEnv) :
    Option String × Bool :=
  match errmsg with
  | some e => (some e, dctx)
  | none =>
    let dctx := if !dctx then env.create_ok else dctx
    if !dctx then (some "Allocating decompression context failed!", dctx)
    else
      match env.run_error with
      | some e => (some e, dctx)
      | none => (none, dctx)

/-- What `treat_file` did with one file. -/
structure Treated where
  /-- The globals when `treat_file` returns. -/
  globals : Globals
  /-- The output name `fn2`, when one was computed. -/
  fn2 : Option (List Char)
  /-- The early `return` after `Skipping ...` was taken. -/
  skipped : Bool
  /-- Whether `fopen(fn2, "wb")` was called, creating or truncating the output. -/
  created : Bool
  /-- Whether `remove(filename)` was called. -/
  removed : Bool
  deriving DecidableEq, Repr

/-- Second half of `treat_file`, from `if (fin == NULL)` to the end: the two
open checks, the work, and the bookkeeping of `exit_code`. `local_fout` tells
whether the output stream is non-null. -/
def treat_file_work (g : Globals) (env : FileEnv) (fn2 : Option (List Char))
    (created local_fout : Bool) : Treated :=
  let errmsg := if !env.fin_opened then some "Opening infile failed." else g.errmsg
  let errmsg := if !local_fout then some "Opening outfile failed." else errmsg
  let g :=
    if g.opt_mode = MODE_COMPRESS then
      let r := do_compress errmsg g.cctx env
      { g with errmsg := r.1, cctx := r.2 }
    else
      let r := do_decompress errmsg g.dctx env
      { g with errmsg := r.1, dctx := r.2 }
  let g := if g.errmsg.isSome then { g with exit_code := E_ERROR } else g
  { globals := g, fn2 := fn2, skipped := false, created := created,
    removed := g.errmsg.isNone && g.opt_keep == 0 }

/-- A `case` of the `switch` in `treat_file` after the output name was written
to `fn2`: the overwrite check on `fn2`, then either the skip
(`exit_code = E_WARNING; return;`) or `fopen(fn2, "wb")` and the work. An
output name that did not fit `fn2` leaves no defined result. -/
def treat_file_case (g : Globals) (env : FileEnv) (fn2 : Option (List Char)) :
    Option Treated :=
  match fn2 with
  | none => none
  | some fn2 =>
    match check_overwrite env.probe g.stdin with
    | none => none
    | some (answer, stdin) =>
      let g := { g with stdin := stdin }
      if answer = 0 then
        some { globals := { g with exit_code := E_WARNING }, fn2 := some fn2,
               skipped := true, created := false, removed := false }
      else
        some (treat_file_work g env (some fn2) true env.fout_opened)

/-- Function `treat_file` of main.c. With `global_fout` the output is the global
stream, which `main` made non-null; otherwise the mode selects the output name,
written to the buffer `fn2` of `fn2_size filename` bytes, and the overwrite check
runs. `none` when the output name does not fit `fn2` or the overwrite question
never ends. -/
def treat_file (opt_suffix : List Char) (g : Globals) (filename : List Char)
    (env : FileEnv) : Option Treated :=
  let g := { g with errmsg := none }
  if g.global_fout ≠ 0 then
    some (treat_file_work g env none false true)
  else if g.opt_mode = MODE_COMPRESS then
    treat_file_case g env (add_suffix opt_suffix filename (fn2_size filename))
  else if g.opt_mode = MODE_DECOMPRESS then
    treat_file_case g env (remove_suffix opt_suffix filename (fn2_size filename))
  else
    some (treat_file_work g env none false false)

/-- The loop `while (files < argc) treat_file(argv[files++])` of `main`: the
files of the command line in order, each with the answers of the environment. -/
def treat_files (opt_suffix : List Char) (g : Globals) :
    List (List Char × FileEnv) → Option Globals
  | [] => some g
  | (filename, env) :: rest =>
    match treat_file opt_suffix g filename env with
    | none => none
    | some t => treat_files opt_suffix t.globals rest

/-- The value `main` passes to `exit` after one pass over the files. -/
def main_exit_code (opt_suffix : List Char) (g : Globals)
    (files : List (List Char × FileEnv)) : Option Int :=
  (treat_files opt_suffix g files).map Globals.exit_code

/-! ## The engine behind `lz4mt.h`

The header declares `LZ4MT_createCCtx`, `LZ4MT_CompressCCtx`, `LZ4MT_createDCtx`
and `LZ4MT_DecompressDCtx`; their bodies are not among the sources. The
definitions of this section follow the specification of the engine: the data
model (§3), the block splitter (§4.2), the worker pool (§4.3), the output
sequencer (§4.4) and the error taxonomy (§7). -/

/-- A byte region. -/
abbrev Bytes := List Nat

/-- Modelled from the spec: the bodies of the engine are missing; this is the
error taxonomy of §7. -/
inductive EngineError where
  | ConfigurationError
  | ResourceError
  | IOError
  | CorruptFrameError
  | CodecError
  deriving DecidableEq, Repr

/-- Modelled from the spec: the bodies of the engine are missing; this is the
status of a block (§3), a failed block having "an error code attached" (§4.3). -/
inductive Status where
  | Pending
  | Running
  | Done
  | Failed (code : EngineError)
  deriving DecidableEq, Repr

/-- Modelled from the spec: the bodies of the engine are missing; a block is a
sequence number, a buffer (raw or compressed) and a status (§3). -/
structure Block (α : Type) where
  sequence : Nat
  payload : α
  status : Status
  deriving DecidableEq, Repr

/-- Modelled from the spec: the bodies of the engine are missing; the frame
header holds the original length, the compressed length and the integrity
checksum of the block (§3). -/
structure FrameHeader where
  originalLength : Nat
  compressedLength : Nat
  checksum : Nat
  deriving DecidableEq, Repr

/-- Modelled from the spec: the bodies of the engine are missing; a frame is the
on-wire representation of one compressed block, header and payload (§6,
glossary). The byte layout of the header is not fixed by the specification, so
the stream between compression and decompression is the sequence of its frames. -/
structure Frame where
  header : FrameHeader
  payload : Bytes
  deriving DecidableEq, Repr

/-- Modelled from the spec: the single-block codec and the checksum are external
functions (§1): compression of one block at a level, its worst-case output bound,
decompression of one block, which may report failure, and the checksum. -/
structure Codec where
  compressBlock : Nat → Bytes → Bytes
  bound : Nat → Nat
  decompressBlock : Bytes → Option Bytes
  checksum : Bytes → Nat

/-- What the round trip needs from the external codec: decompression undoes
compression, and compression respects the worst-case bound. -/
structure Codec.Lawful (codec : Codec) : Prop where
  decompress_compress : ∀ level raw,
    codec.decompressBlock (codec.compressBlock level raw) = some raw
  compress_le_bound : ∀ level raw,
    (codec.compressBlock level raw).length ≤ codec.bound raw.length

/-- Removes the first element that satisfies `p`, returning it with the rest. -/
def extract {α : Type} (p : α → Bool) : List α → Option (α × List α)
  | [] => none
  | a :: l =>
    if p a then some (a, l)
    else
      match extract p l with
      | none => none
      | some (b, rest) => some (b, a :: rest)

/-! ### Block splitter (§4.2) -/

/-- Modelled from the spec: the bodies of the engine are missing. The feeder
"repeatedly calls pull() to fill fixed-size chunks", "assigns the next sequence
number" and enqueues a job; "on end-of-input (pull returns 0)" it stops, the
final partial block having been enqueued "if non-empty". A pull of `size`
bytes delivers the next `size` bytes of the input, fewer at its end. The first
argument bounds the number of pulls. -/
def splitBlocks (size : Nat) : Nat → Bytes → Nat → List (Block Bytes)
  | 0, _, _ => []
  | fuel + 1, input, sequence =>
    let chunk := input.take size
    if chunk.length = 0 then []
    else
      { sequence := sequence, payload := chunk, status := Status.Pending } ::
        splitBlocks size fuel (input.drop size) (sequence + 1)

/-- Modelled from the spec: the bodies of the engine are missing. On the
decompression side the feeder reads the frames of the stream in order and
numbers them from 0. -/
def frameBlocks : List Frame → Nat → List (Block Frame)
  | [], _ => []
  | f :: rest, sequence =>
    { sequence := sequence, payload := f, status := Status.Pending } ::
      frameBlocks rest (sequence + 1)

/-! ### Worker pool (§4.3) -/

/-- Modelled from the spec: the bodies of the engine are missing. A compression
job runs the codec on the raw block and writes the frame header: original size,
compressed size, block checksum. -/
def compressJob (codec : Codec) (level : Nat) (b : Block Bytes) : Block Frame :=
  let compressed := codec.compressBlock level b.payload
  { sequence := b.sequence
    payload :=
      { header :=
          { originalLength := b.payload.length
            compressedLength := compressed.length
            checksum := codec.checksum b.payload }
        payload := compressed }
    status := Status.Done }

/-- Modelled from the spec: the bodies of the engine are missing. A
decompression job validates the frame header and decodes the block: a header
that "declares impossible length" or "fails checksum" is a `CorruptFrameError`,
a failure reported by the codec is a `CodecError` (§7). -/
def decompressJob (codec : Codec) (b : Block Frame) : Block Bytes :=
  let f := b.payload
  if f.header.compressedLength ≠ f.payload.length ∨
      codec.bound f.header.originalLength < f.header.compressedLength then
    { sequence := b.sequence, payload := [],
      status := Status.Failed EngineError.CorruptFrameError }
  else
    match codec.decompressBlock f.payload with
    | none =>
      { sequence := b.sequence, payload := [],
        status := Status.Failed EngineError.CodecError }
    | some raw =>
      if raw.length ≠ f.header.originalLength ∨ codec.checksum raw ≠ f.header.checksum then
        { sequence := b.sequence, payload := [],
          status := Status.Failed EngineError.CorruptFrameError }
      else
        { sequence := b.sequence, payload := raw, status := Status.Done }

/-- Modelled from the spec: the bodies of the engine are missing. The pool: the
queue of pending jobs in sequence order, the jobs claimed by a worker (worker
index, job), and the finished blocks in the order of their completion. -/
structure Pool (α β : Type) where
  queue : List (Block α)
  running : List (Nat × Block α)
  completed : List (Block β)

/-- Modelled from the spec: the bodies of the engine are missing. One move of
worker `w` among `threads` workers, "each in a loop: claim next Job from the
queue, execute, mark Block Done (or Failed), and hand the Block to the Output
Sequencer": a worker that holds a job finishes it, an idle worker claims the
head of the queue, and nothing happens when the queue is empty or there is no
such worker. -/
def Pool.step {α β : Type} (threads : Nat) (work : Block α → Block β)
    (p : Pool α β) (w : Nat) : Pool α β :=
  if w < threads then
    match extract (fun e => e.1 == w) p.running with
    | some (e, rest) =>
      { p with running := rest, completed := p.completed ++ [work e.2] }
    | none =>
      match p.queue with
      | [] => p
      | j :: q => { p with queue := q, running := (w, j) :: p.running }
  else p

/-- The blocks a pool has completed, followed by the results of the jobs it still
holds: the claimed ones, then the queued ones. -/
def Pool.all {α β : Type} (work : Block α → Block β) (p : Pool α β) : List (Block β) :=
  p.completed ++ p.running.map (fun e => work e.2) ++ p.queue.map work

/-- Modelled from the spec: the bodies of the engine are missing. The order in
which the blocks complete when `threads` workers move as `schedule` says (a list
of worker indices). A run ends when all jobs are done; once `schedule` is used
up the claimed jobs are finished and the first worker takes the jobs left in the
queue, one after the other. -/
def completionOrder {α β : Type} (threads : Nat) (work : Block α → Block β)
    (schedule : List Nat) (jobs : List (Block α)) : List (Block β) :=
  let p := schedule.foldl (Pool.step threads work)
    { queue := jobs, running := [], completed := [] }
  p.completed ++ p.running.map (fun e => work e.2) ++ p.queue.map work

/-! ### Output sequencer (§4.4) -/

/-- Modelled from the spec: the bodies of the engine are missing. The sequencer
"maintains the next sequence number expected for emission (starts at 0) and a
holding area for Done blocks that arrived out of order"; `pushed` lists the
blocks handed to the push callback, first to last, and `error` is the terminal
error raised when the expected block is Failed. -/
structure Sequencer (β : Type) where
  next : Nat
  held : List (Block β)
  pushed : List (Block β)
  error : Option EngineError
  deriving DecidableEq, Repr

/-- The sequencer before the first completion. -/
def Sequencer.init {β : Type} : Sequencer β :=
  { next := 0, held := [], pushed := [], error := none }

/-- Modelled from the spec: the bodies of the engine are missing. The turn of the
expected block: a Failed block stops the run with its error, any other block is
handed to push and the expected counter advances. -/
def Sequencer.emit {β : Type} (s : Sequencer β) (b : Block β) : Sequencer β :=
  match b.status with
  | Status.Failed code => { s with error := some code }
  | _ => { s with next := s.next + 1, pushed := s.pushed ++ [b] }

/-- Modelled from the spec: the bodies of the engine are missing. Draining "all
immediately-following already-Done blocks": as long as the holding area has the
expected block it is taken out and emitted. The first argument bounds the number
of blocks taken out. -/
def Sequencer.drain {β : Type} : Nat → Sequencer β → Sequencer β
  | 0, s => s
  | fuel + 1, s =>
    if s.error.isSome then s
    else
      match extract (fun b => b.sequence == s.next) s.held with
      | none => s
      | some (b, rest) => Sequencer.drain fuel (Sequencer.emit { s with held := rest } b)

/-- Modelled from the spec: the bodies of the engine are missing. "On each Block
completion (from any worker), if its sequence equals the expected next value,
drain it and all immediately-following already-Done blocks to the adapter's
push(), advancing the expected counter; otherwise hold it." After the terminal
error the blocks that complete are discarded. -/
def Sequencer.complete {β : Type} (s : Sequencer β) (b : Block β) : Sequencer β :=
  if s.error.isSome then s
  else if b.sequence = s.next then Sequencer.drain s.held.length (Sequencer.emit s b)
  else { s with held := b :: s.held }

/-- Modelled from the spec: the bodies of the engine are missing. One run of the
pool and the sequencer over the jobs of the feeder. -/
def runJobs {α β : Type} (threads : Nat) (work : Block α → Block β)
    (schedule : List Nat) (jobs : List (Block α)) : Sequencer β :=
  (completionOrder threads work schedule jobs).foldl Sequencer.complete Sequencer.init

/-! ### Contexts and runs (§4.5, §6) -/

/-- Documented range of the level in `lz4mt.h`: `@level - 1 .. 9`. -/
def LZ4MT_LEVEL_MAX : Nat := 9

/-- Modelled from the spec: the bodies of the engine are missing. The compression
context: thread count, level and block size. -/
structure LZ4MT_CCtx where
  threads : Nat
  level : Nat
  blockSize : Nat
  deriving DecidableEq, Repr

/-- Modelled from the spec: the bodies of the engine are missing. The
decompression context: the thread count. -/
structure LZ4MT_DCtx where
  threads : Nat
  deriving DecidableEq, Repr

/-- Modelled from the spec: the body is missing. `LZ4MT_createCCtx` returns "cctx
or zero on error"; the engine "must still reject out-of-range values
defensively": a thread count outside `1 .. LZ4MT_THREAD_MAX`, a level outside
`1 .. 9`, a negative size. With `inputsize` zero the block size "becomes some
optimal value for the level", derived from the level and `blockSizeID` by a
policy function `autoSize` which the specification leaves open; "if nonzero, the
given value is taken". -/
def LZ4MT_createCCtx (autoSize : Nat → Int → Nat) (threads level inputsize blockSizeID : Int) :
    Option LZ4MT_CCtx :=
  if threads < 1 ∨ LZ4MT_THREAD_MAX < threads ∨ level < 1 ∨ (LZ4MT_LEVEL_MAX : Int) < level ∨
      inputsize < 0 then none
  else
    some
      { threads := threads.toNat
        level := level.toNat
        blockSize :=
          if inputsize = 0 then autoSize level.toNat blockSizeID else inputsize.toNat }

/-- Modelled from the spec: the body is missing. `LZ4MT_createDCtx` returns the
context or zero on error; it rejects a thread count outside
`1 .. LZ4MT_THREAD_MAX`. -/
def LZ4MT_createDCtx (threads : Int) : Option LZ4MT_DCtx :=
  if threads < 1 ∨ LZ4MT_THREAD_MAX < threads then none
  else some { threads := threads.toNat }

/-- Modelled from the spec: the body is missing. The sequencer at the end of a
compression run: the input is split into blocks, the pool compresses them as the
schedule says and the sequencer pushes the frames. -/
def compressRun (codec : Codec) (ctx : LZ4MT_CCtx) (schedule : List Nat) (input : Bytes) :
    Sequencer Frame :=
  runJobs ctx.threads (compressJob codec ctx.level) schedule
    (splitBlocks ctx.blockSize (input.length + 1) input 0)

/-- Modelled from the spec: the body is missing. The sequencer at the end of a
decompression run over the frames of the stream. -/
def decompressRun (codec : Codec) (ctx : LZ4MT_DCtx) (schedule : List Nat)
    (stream : List Frame) : Sequencer Bytes :=
  runJobs ctx.threads (decompressJob codec) schedule (frameBlocks stream 0)

/-- Modelled from the spec: the body is missing. `LZ4MT_CompressCCtx`: the run
returns the error of the sequencer, or else the stream handed to the write
callback, frame after frame. -/
def LZ4MT_CompressCCtx (codec : Codec) (ctx : LZ4MT_CCtx) (schedule : List Nat)
    (input : Bytes) : Except EngineError (List Frame) :=
  let s := compressRun codec ctx schedule input
  match s.error with
  | some code => Except.error code
  | none => Except.ok (s.pushed.map Block.payload)

/-- Modelled from the spec: the body is missing. `LZ4MT_DecompressDCtx`: the run
returns the error of the sequencer, or else the bytes handed to the write
callback, block after block. -/
def LZ4MT_DecompressDCtx (codec : Codec) (ctx : LZ4MT_DCtx) (schedule : List Nat)
    (stream : List Frame) : Except EngineError Bytes :=
  let s := decompressRun codec ctx schedule stream
  match s.error with
  | some code => Except.error code
  | none => Except.ok (s.pushed.map Block.payload).flatten

/-- Blocks carry the sequence numbers `start`, `start + 1`, ... in list order. -/
def Numbered {β : Type} (bs : List (Block β)) (start : Nat) : Prop :=
  bs.map Block.sequence = List.range' start bs.length

/-- A block is Failed, with whatever error code. -/
def Block.isFailed {β : Type} (b : Block β) : Prop :=
  ∃ code, b.status = Status.Failed code

/-- Invariant of the sequencer against the blocks `bs` in input order: what was
pushed is the first `next` blocks, none of them Failed; the holding area holds
blocks of the run; a terminal error is the error of the block whose turn it was. -/
structure SeqInv {β : Type} (bs : List (Block β)) (s : Sequencer β) : Prop where
  pushed_eq : s.pushed = bs.take s.next
  next_le : s.next ≤ bs.length
  held_mem : ∀ b ∈ s.held, b ∈ bs
  pushed_ok : ∀ b ∈ s.pushed, ¬ b.isFailed
  error_at : ∀ e, s.error = some e →
    ∃ b ∈ bs, b.sequence = s.next ∧ b.status = Status.Failed e

/-- Until a terminal error, every block seen so far was pushed or is held. -/
def Covers {β : Type} (seen : List (Block β)) (s : Sequencer β) : Prop :=
  s.error = none → ∀ x ∈ seen, x ∈ s.pushed ∨ x ∈ s.held

/-- Until a terminal error, the holding area does not hold the expected block. -/
def Settled {β : Type} (s : Sequencer β) : Prop :=
  s.error = none → ∀ b ∈ s.held, b.sequence ≠ s.next

/-! ## Sample inputs -/

/-- Globals after `-f` on the command line, in compress mode, writing to files. -/
def forcedCompress : Globals :=
  { exit_code := E_OK, opt_mode := MODE_COMPRESS, opt_force := 1, opt_keep := 1,
    global_fout := 0, errmsg := none, cctx := false, dctx := false,
    stdin := "n\n".toList }

/-- An input file that opens, whose output name already exists and is writable. -/
def existingOutput : FileEnv :=
  { fin_opened := true, probe := ProbeResult.opened, fout_opened := true,
    create_ok := true, run_error := none }

/-- Globals at the start of the file loop: compress mode, writing to files, with
the reply `n` waiting on standard input. -/
def compressStart : Globals :=
  { exit_code := E_OK, opt_mode := MODE_COMPRESS, opt_force := 0, opt_keep := 1,
    global_fout := 0, errmsg := none, cctx := false, dctx := false,
    stdin := "n\n".toList }

/-- An input file that can not be opened and whose output name is free. -/
def unreadableInput : FileEnv :=
  { fin_opened := false, probe := ProbeResult.enoent, fout_opened := true,
    create_ok := true, run_error := none }

/-- An input file that opens and whose output name is free and writable. -/
def freshOutput : FileEnv :=
  { fin_opened := true, probe := ProbeResult.enoent, fout_opened := true,
    create_ok := true, run_error := none }

/-- A suffix of 44 characters, as `-S` accepts it. -/
def longSuffix : List Char := ".compressed-by-the-multithreaded-lz4-wrapper".toList

/-- A codec that stores blocks as they are, with the byte sum as checksum. -/
def storeCodec : Codec :=
  { compressBlock := fun _ raw => raw
    bound := fun n => n
    decompressBlock := fun data => some data
    checksum := fun data => data.sum }

end Zstdmt

/-! # Properties -/

namespace Zstdmt

/-! ## Helper lemmas -/

theorem toInt32_of_lt (n : Nat) (h : n < 2 ^ 31) : toInt32 n = (n : Int) := by
  unfold toInt32
  have h1 : n % 2 ^ 32 = n := Nat.mod_eq_of_lt (by omega)
  simp only [h1]
  rw [if_pos h]

theorem strcmp_self (a : List Char) : strcmp a a = 0 := by
  induction a with
  | nil => rfl
  | cons x xs ih => simp [strcmp, ih]

theorem strcmp_eq_zero (a b : List Char) : strcmp a b = 0 ↔ a = b := by
  induction a generalizing b with
  | nil => cases b <;> simp [strcmp]
  | cons x xs ih =>
    cases b with
    | nil => simp [strcmp]
    | cons y ys =>
      by_cases hxy : x = y
      · simp [strcmp, hxy, ih]
      · by_cases hlt : x.toNat < y.toNat <;> simp [strcmp, hxy, hlt]

/-! ## The engine: helper lemmas -/

theorem extract_some {α : Type} (p : α → Bool) :
    ∀ (l : List α) (b : α) (rest : List α), extract p l = some (b, rest) →
      p b = true ∧ List.Perm l (b :: rest) := by
  intro l
  induction l with
  | nil => intro b rest h; simp [extract] at h
  | cons a l ih =>
    intro b rest h
    unfold extract at h
    by_cases hp : p a = true
    · rw [if_pos hp] at h
      simp only [Option.some.injEq, Prod.mk.injEq] at h
      obtain ⟨rfl, rfl⟩ := h
      exact ⟨hp, List.Perm.refl _⟩
    · rw [if_neg hp] at h
      cases hx : extract p l with
      | none => rw [hx] at h; simp at h
      | some r =>
        obtain ⟨c, rest1⟩ := r
        rw [hx] at h
        simp only [Option.some.injEq, Prod.mk.injEq] at h
        obtain ⟨rfl, rfl⟩ := h
        obtain ⟨hc, hperm⟩ := ih c rest1 hx
        exact ⟨hc, (List.Perm.cons a hperm).trans (List.Perm.swap c a rest1)⟩

theorem extract_none {α : Type} (p : α → Bool) :
    ∀ (l : List α), extract p l = none → ∀ a ∈ l, p a = false := by
  intro l
  induction l with
  | nil => intro _ a ha; simp at ha
  | cons x l ih =>
    intro h a ha
    unfold extract at h
    by_cases hp : p x = true
    · rw [if_pos hp] at h; simp at h
    · rw [if_neg hp] at h
      cases hx : extract p l with
      | some r => rw [hx] at h; simp at h
      | none =>
        rcases List.mem_cons.1 ha with rfl | hmem
        · simpa using hp
        · exact ih hx a hmem

theorem Pool.step_perm {α β : Type} (threads : Nat) (work : Block α → Block β)
    (p : Pool α β) (w : Nat) :
    List.Perm (Pool.all work (Pool.step threads work p w)) (Pool.all work p) := by
  unfold Pool.step
  by_cases hw : w < threads
  · rw [if_pos hw]
    cases hx : extract (fun e => e.1 == w) p.running with
    | some r =>
      obtain ⟨e, rest⟩ := r
      obtain ⟨_, hperm⟩ := extract_some _ _ _ _ hx
      simp only [Pool.all]
      have h1 : List.Perm (p.running.map (fun e => work e.2))
          (work e.2 :: rest.map (fun e => work e.2)) := by
        simpa using hperm.map (fun e => work e.2)
      refine List.Perm.append_right _ ?_
      rw [List.append_assoc]
      refine List.Perm.append_left _ ?_
      simpa using h1.symm
    | none =>
      cases hq : p.queue with
      | nil => simp [hq]
      | cons j q =>
        simp only [Pool.all, hq, List.map_cons]
        rw [List.append_assoc, List.append_assoc]
        refine List.Perm.append_left _ ?_
        simpa using (@List.perm_middle _ (work j)
          (p.running.map (fun e => work e.2)) (q.map work)).symm
  · rw [if_neg hw]

theorem foldl_step_perm {α β : Type} (threads : Nat) (work : Block α → Block β) :
    ∀ (schedule : List Nat) (p : Pool α β),
      List.Perm (Pool.all work (schedule.foldl (Pool.step threads work) p)) (Pool.all work p) := by
  intro schedule
  induction schedule with
  | nil => intro p; exact List.Perm.refl _
  | cons w rest ih =>
    intro p
    exact (ih (Pool.step threads work p w)).trans (Pool.step_perm threads work p w)

theorem completionOrder_perm {α β : Type} (threads : Nat) (work : Block α → Block β)
    (schedule : List Nat) (jobs : List (Block α)) :
    List.Perm (completionOrder threads work schedule jobs) (jobs.map work) := by
  have h := foldl_step_perm threads work schedule
    { queue := jobs, running := [], completed := [] }
  simpa [completionOrder, Pool.all] using h

theorem Numbered.lookup {β : Type} {bs : List (Block β)} (hn : Numbered bs 0)
    {b : Block β} (hb : b ∈ bs) :
    ∃ h : b.sequence < bs.length, bs[b.sequence] = b := by
  obtain ⟨i, hi, rfl⟩ := List.getElem_of_mem hb
  have h1 : (bs.map Block.sequence)[i]? = (List.range' 0 bs.length)[i]? := by
    rw [hn]
  have h2 : bs[i].sequence = i := by
    simpa [List.getElem?_map, List.getElem?_eq_getElem hi, List.getElem?_range' , hi] using h1
  exact ⟨by omega, by simp [h2]⟩

theorem Sequencer.emit_held {β : Type} (t : Sequencer β) (b : Block β) :
    (t.emit b).held = t.held := by
  unfold Sequencer.emit
  cases b.status <;> rfl

theorem Sequencer.emit_inv {β : Type} {bs : List (Block β)} (hn : Numbered bs 0)
    (t : Sequencer β) (b : Block β) (hinv : SeqInv bs t) (herr : t.error = none)
    (hb : b ∈ bs) (hseq : b.sequence = t.next) : SeqInv bs (t.emit b) := by
  obtain ⟨hlt, hget⟩ := hn.lookup hb
  have hpush : SeqInv bs { t with next := t.next + 1, pushed := t.pushed ++ [b] } ∨
      b.isFailed := by
    by_cases hf : b.isFailed
    · exact Or.inr hf
    · refine Or.inl ⟨?_, ?_, hinv.held_mem, ?_, ?_⟩
      · show t.pushed ++ [b] = bs.take (t.next + 1)
        rw [hinv.pushed_eq, List.take_succ, ← hseq, List.getElem?_eq_getElem hlt, hget]
        rfl
      · show t.next + 1 ≤ bs.length
        omega
      · intro x hx
        rcases List.mem_append.1 hx with h | h
        · exact hinv.pushed_ok x h
        · simp only [List.mem_singleton] at h
          rw [h]; exact hf
      · intro e he
        rw [herr] at he
        cases he
  unfold Sequencer.emit
  cases hstat : b.status with
  | Failed code =>
    refine ⟨hinv.pushed_eq, hinv.next_le, hinv.held_mem, hinv.pushed_ok, ?_⟩
    intro e he
    simp only [Option.some.injEq] at he
    subst he
    exact ⟨b, hb, hseq, hstat⟩
  | Pending =>
    rcases hpush with h | ⟨code, hc⟩
    · exact h
    · rw [hstat] at hc; cases hc
  | Running =>
    rcases hpush with h | ⟨code, hc⟩
    · exact h
    · rw [hstat] at hc; cases hc
  | Done =>
    rcases hpush with h | ⟨code, hc⟩
    · exact h
    · rw [hstat] at hc; cases hc

theorem Sequencer.emit_covers {β : Type} (seen : List (Block β)) (t : Sequencer β)
    (b : Block β) (h : ∀ x ∈ seen, x ∈ t.pushed ∨ x = b ∨ x ∈ t.held) :
    Covers seen (t.emit b) := by
  unfold Sequencer.emit
  cases hstat : b.status with
  | Failed code => intro he; simp at he
  | Pending =>
    intro _ x hx
    rcases h x hx with h1 | h1 | h1
    · exact Or.inl (List.mem_append_left _ h1)
    · exact Or.inl (by simp [h1])
    · exact Or.inr h1
  | Running =>
    intro _ x hx
    rcases h x hx with h1 | h1 | h1
    · exact Or.inl (List.mem_append_left _ h1)
    · exact Or.inl (by simp [h1])
    · exact Or.inr h1
  | Done =>
    intro _ x hx
    rcases h x hx with h1 | h1 | h1
    · exact Or.inl (List.mem_append_left _ h1)
    · exact Or.inl (by simp [h1])
    · exact Or.inr h1

theorem Sequencer.drain_inv {β : Type} {bs : List (Block β)} (hn : Numbered bs 0)
    (seen : List (Block β)) :
    ∀ (fuel : Nat) (s : Sequencer β), SeqInv bs s → Covers seen s → s.held.length ≤ fuel →
      SeqInv bs (Sequencer.drain fuel s) ∧ Covers seen (Sequencer.drain fuel s) ∧
        Settled (Sequencer.drain fuel s) := by
  intro fuel
  induction fuel with
  | zero =>
    intro s hinv hc hlen
    have hd : Sequencer.drain 0 s = s := rfl
    rw [hd]
    refine ⟨hinv, hc, ?_⟩
    intro _ b hb
    have : s.held = [] := List.length_eq_zero.1 (by omega)
    rw [this] at hb
    simp at hb
  | succ fuel ih =>
    intro s hinv hc hlen
    unfold Sequencer.drain
    by_cases herr : s.error.isSome = true
    · rw [if_pos herr]
      refine ⟨hinv, hc, ?_⟩
      intro he
      rw [he] at herr
      simp at herr
    · rw [if_neg herr]
      have hnone : s.error = none := by
        cases h : s.error with
        | none => rfl
        | some e => rw [h] at herr; simp at herr
      cases hx : extract (fun b => b.sequence == s.next) s.held with
      | none =>
        refine ⟨hinv, hc, ?_⟩
        intro _ b hb
        have := extract_none _ _ hx b hb
        simpa using this
      | some r =>
        obtain ⟨b, rest⟩ := r
        obtain ⟨hpb, hperm⟩ := extract_some _ _ _ _ hx
        have hseq : b.sequence = s.next := by simpa using hpb
        have hbheld : b ∈ s.held := hperm.mem_iff.2 (List.mem_cons_self _ _)
        have hrest : ∀ x ∈ rest, x ∈ s.held := fun x hx =>
          hperm.mem_iff.2 (List.mem_cons_of_mem _ hx)
        have hinv1 : SeqInv bs { s with held := rest } :=
          ⟨hinv.pushed_eq, hinv.next_le, fun x hx => hinv.held_mem x (hrest x hx),
            hinv.pushed_ok, hinv.error_at⟩
        have hinv2 := Sequencer.emit_inv hn { s with held := rest } b hinv1 hnone
          (hinv.held_mem b hbheld) hseq
        have hc2 : Covers seen (Sequencer.emit { s with held := rest } b) := by
          apply Sequencer.emit_covers
          intro x hx
          rcases hc hnone x hx with h1 | h1
          · exact Or.inl h1
          · rcases List.mem_cons.1 (hperm.mem_iff.1 h1) with h2 | h2
            · exact Or.inr (Or.inl h2)
            · exact Or.inr (Or.inr h2)
        have hlen2 : (Sequencer.emit { s with held := rest } b).held.length ≤ fuel := by
          rw [Sequencer.emit_held]
          have := hperm.length_eq
          simp only [List.length_cons] at this
          show rest.length ≤ fuel
          omega
        exact ih _ hinv2 hc2 hlen2

theorem Sequencer.complete_inv {β : Type} {bs : List (Block β)} (hn : Numbered bs 0)
    (seen : List (Block β)) (s : Sequencer β) (b : Block β)
    (hinv : SeqInv bs s) (hc : Covers seen s) (hs : Settled s) (hb : b ∈ bs) :
    SeqInv bs (s.complete b) ∧ Covers (b :: seen) (s.complete b) ∧
      Settled (s.complete b) := by
  unfold Sequencer.complete
  by_cases herr : s.error.isSome = true
  · rw [if_pos herr]
    have hne : s.error ≠ none := by
      intro he; rw [he] at herr; simp at herr
    exact ⟨hinv, fun he => absurd he hne, fun he => absurd he hne⟩
  · rw [if_neg herr]
    have hnone : s.error = none := by
      cases h : s.error with
      | none => rfl
      | some e => rw [h] at herr; simp at herr
    by_cases hseq : b.sequence = s.next
    · rw [if_pos hseq]
      have hinv2 := Sequencer.emit_inv hn s b hinv hnone hb hseq
      have hc2 : Covers (b :: seen) (s.emit b) := by
        apply Sequencer.emit_covers
        intro x hx
        rcases List.mem_cons.1 hx with h1 | h1
        · exact Or.inr (Or.inl h1)
        · rcases hc hnone x h1 with h2 | h2
          · exact Or.inl h2
          · exact Or.inr (Or.inr h2)
      have hlen : (s.emit b).held.length ≤ s.held.length := by
        rw [Sequencer.emit_held]
      exact Sequencer.drain_inv hn (b :: seen) s.held.length (s.emit b) hinv2 hc2 hlen
    · rw [if_neg hseq]
      refine ⟨⟨hinv.pushed_eq, hinv.next_le, ?_, hinv.pushed_ok, hinv.error_at⟩, ?_, ?_⟩
      · intro x hx
        rcases List.mem_cons.1 hx with h1 | h1
        · rw [h1]; exact hb
        · exact hinv.held_mem x h1
      · intro _ x hx
        rcases List.mem_cons.1 hx with h1 | h1
        · exact Or.inr (by rw [h1]; exact List.mem_cons_self _ _)
        · rcases hc hnone x h1 with h2 | h2
          · exact Or.inl h2
          · exact Or.inr (List.mem_cons_of_mem _ h2)
      · intro _ x hx
        rcases List.mem_cons.1 hx with h1 | h1
        · rw [h1]; exact hseq
        · exact hs hnone x h1

theorem Sequencer.foldl_complete_inv {β : Type} {bs : List (Block β)} (hn : Numbered bs 0) :
    ∀ (cs seen : List (Block β)) (s : Sequencer β), (∀ b ∈ cs, b ∈ bs) →
      SeqInv bs s → Covers seen s → Settled s →
      SeqInv bs (cs.foldl Sequencer.complete s) ∧
        Covers (cs.reverse ++ seen) (cs.foldl Sequencer.complete s) ∧
        Settled (cs.foldl Sequencer.complete s) := by
  intro cs
  induction cs with
  | nil => intro seen s _ hinv hc hs; exact ⟨hinv, by simpa using hc, hs⟩
  | cons b rest ih =>
    intro seen s hmem hinv hc hs
    obtain ⟨h1, h2, h3⟩ := Sequencer.complete_inv hn seen s b hinv hc hs
      (hmem b (List.mem_cons_self _ _))
    have := ih (b :: seen) (s.complete b)
      (fun x hx => hmem x (List.mem_cons_of_mem _ hx)) h1 h2 h3
    simpa using this

theorem Sequencer.init_inv {β : Type} (bs : List (Block β)) :
    SeqInv bs (Sequencer.init : Sequencer β) := by
  refine ⟨by simp [Sequencer.init], by simp [Sequencer.init], ?_, ?_, ?_⟩
  · intro b hb; simp [Sequencer.init] at hb
  · intro b hb; simp [Sequencer.init] at hb
  · intro e he; simp [Sequencer.init] at he

theorem Numbered.sequence_getElem {β : Type} {bs : List (Block β)} (hn : Numbered bs 0)
    (i : Nat) (hi : i < bs.length) : bs[i].sequence = i := by
  have h1 : (bs.map Block.sequence)[i]? = (List.range' 0 bs.length)[i]? := by
    rw [hn]
  simpa [List.getElem?_map, List.getElem?_eq_getElem hi, List.getElem?_range' , hi] using h1

theorem SeqInv.all_pushed {β : Type} {bs seen : List (Block β)} {s : Sequencer β}
    (hn : Numbered bs 0) (hinv : SeqInv bs s) (hc : Covers seen s) (hs : Settled s)
    (hall : ∀ b ∈ bs, b ∈ seen) (herr : s.error = none) : s.pushed = bs := by
  have hnext : s.next = bs.length := by
    by_contra hne
    have hlt : s.next < bs.length := lt_of_le_of_ne hinv.next_le hne
    have e2 := hn.sequence_getElem s.next hlt
    rcases hc herr bs[s.next] (hall _ (List.getElem_mem _)) with h1 | h1
    · rw [hinv.pushed_eq] at h1
      obtain ⟨j, hj, hget⟩ := List.getElem_of_mem h1
      rw [List.getElem_take] at hget
      have hjlt : j < s.next := by
        simp only [List.length_take] at hj; omega
      have e1 := hn.sequence_getElem j (by omega)
      rw [hget] at e1
      omega
    · exact hs herr _ h1 e2
  have := hinv.pushed_eq
  rw [hnext, List.take_length] at this
  exact this

/-- What the sequencer ends with after the blocks `bs` have completed in any
order `order`: the pushed blocks are the first `next` blocks in input order, none
of them Failed; a terminal error is the error of the block at position `next`;
without a terminal error all blocks were pushed. -/
theorem Sequencer.foldl_perm_spec {β : Type} {bs : List (Block β)} (hn : Numbered bs 0)
    (order : List (Block β)) (hperm : List.Perm order bs) :
    SeqInv bs (order.foldl Sequencer.complete Sequencer.init) ∧
    ((order.foldl Sequencer.complete Sequencer.init).error = none →
      (order.foldl Sequencer.complete Sequencer.init).pushed = bs) := by
  obtain ⟨hinv, hc, hs⟩ := Sequencer.foldl_complete_inv hn order [] Sequencer.init
    (fun b hb => hperm.mem_iff.1 hb) (Sequencer.init_inv _)
    (fun _ x hx => by simp at hx) (fun _ b hb => by simp [Sequencer.init] at hb)
  refine ⟨hinv, ?_⟩
  intro herr
  refine SeqInv.all_pushed hn hinv hc hs ?_ herr
  intro b hb
  simpa using hperm.mem_iff.2 hb

theorem Sequencer.foldl_perm_no_failure {β : Type} {bs : List (Block β)}
    (hn : Numbered bs 0) (hok : ∀ b ∈ bs, ¬ b.isFailed)
    (order : List (Block β)) (hperm : List.Perm order bs) :
    (order.foldl Sequencer.complete Sequencer.init).error = none ∧
      (order.foldl Sequencer.complete Sequencer.init).pushed = bs := by
  obtain ⟨hinv, hall⟩ := Sequencer.foldl_perm_spec hn order hperm
  have herr : (order.foldl Sequencer.complete Sequencer.init).error = none := by
    cases h : (order.foldl Sequencer.complete Sequencer.init).error with
    | none => rfl
    | some e =>
      obtain ⟨b, hb, _, hst⟩ := hinv.error_at e h
      exact absurd ⟨e, hst⟩ (hok b hb)
  exact ⟨herr, hall herr⟩

/-- The same for a run of the pool, whatever the thread count and the schedule. -/
theorem runJobs_spec {α β : Type} (threads : Nat) (work : Block α → Block β)
    (schedule : List Nat) (jobs : List (Block α)) (hn : Numbered (jobs.map work) 0) :
    SeqInv (jobs.map work) (runJobs threads work schedule jobs) ∧
    ((runJobs threads work schedule jobs).error = none →
      (runJobs threads work schedule jobs).pushed = jobs.map work) :=
  Sequencer.foldl_perm_spec hn _ (completionOrder_perm threads work schedule jobs)

theorem splitBlocks_numbered (size : Nat) :
    ∀ (fuel : Nat) (input : Bytes) (start : Nat),
      Numbered (splitBlocks size fuel input start) start := by
  intro fuel
  induction fuel with
  | zero => intro input start; simp [splitBlocks, Numbered]
  | succ fuel ih =>
    intro input start
    unfold splitBlocks
    by_cases h : (input.take size).length = 0
    · simp only [h, if_true]; simp [Numbered]
    · simp only [h, if_false]
      have := ih (input.drop size) (start + 1)
      unfold Numbered at this ⊢
      simp only [List.map_cons, List.length_cons, List.range'_succ, this]

theorem splitBlocks_flatten (size : Nat) (hsize : 0 < size) :
    ∀ (fuel : Nat) (input : Bytes) (start : Nat), input.length < fuel →
      ((splitBlocks size fuel input start).map Block.payload).flatten = input := by
  intro fuel
  induction fuel with
  | zero => intro input start h; omega
  | succ fuel ih =>
    intro input start hlen
    unfold splitBlocks
    by_cases h : (input.take size).length = 0
    · simp only [h, if_true]
      have : input = [] := by
        cases input with
        | nil => rfl
        | cons a l => simp at h; omega
      simp [this]
    · simp only [h, if_false]
      have hne : input ≠ [] := by
        intro he; rw [he] at h; simp at h
      have hpos : 0 < input.length := List.length_pos.2 hne
      have hdrop : (input.drop size).length < fuel := by
        rw [List.length_drop]; omega
      simp only [List.map_cons, List.flatten_cons, ih (input.drop size) (start + 1) hdrop]
      exact List.take_append_drop size input

theorem frameBlocks_numbered :
    ∀ (stream : List Frame) (start : Nat), Numbered (frameBlocks stream start) start := by
  intro stream
  induction stream with
  | nil => intro start; simp [frameBlocks, Numbered]
  | cons f rest ih =>
    intro start
    have := ih (start + 1)
    unfold Numbered at this ⊢
    simp only [frameBlocks, List.map_cons, List.length_cons, List.range'_succ, this]

theorem compressJob_sequence (codec : Codec) (level : Nat) (b : Block Bytes) :
    (compressJob codec level b).sequence = b.sequence := rfl

theorem decompressJob_sequence (codec : Codec) (b : Block Frame) :
    (decompressJob codec b).sequence = b.sequence := by
  unfold decompressJob
  simp only
  split_ifs
  · rfl
  · cases codec.decompressBlock b.payload.payload with
    | none => rfl
    | some raw =>
      simp only
      split_ifs <;> rfl

theorem Numbered.map_work {α β : Type} {bs : List (Block α)} {start : Nat}
    (hn : Numbered bs start) (work : Block α → Block β)
    (hw : ∀ b, (work b).sequence = b.sequence) : Numbered (bs.map work) start := by
  unfold Numbered at hn ⊢
  rw [List.length_map, ← hn, List.map_map]
  apply List.map_congr_left
  intro b _
  exact hw b

theorem compressJob_not_failed (codec : Codec) (level : Nat) (b : Block Bytes) :
    ¬ (compressJob codec level b).isFailed := by
  rintro ⟨code, h⟩
  simp [compressJob] at h

theorem decompressJob_compressJob (codec : Codec) (hcodec : codec.Lawful) (level : Nat)
    (b : Block Bytes) (n : Nat) :
    decompressJob codec
        { sequence := n, payload := (compressJob codec level b).payload,
          status := Status.Pending } =
      { sequence := n, payload := b.payload, status := Status.Done } := by
  have h1 := hcodec.decompress_compress level b.payload
  have h2 := hcodec.compress_le_bound level b.payload
  unfold decompressJob
  simp only [compressJob, h1]
  rw [if_neg (by
    intro h
    rcases h with h | h
    · exact h rfl
    · omega)]
  simp

theorem Numbered.cons_inv {β : Type} {b : Block β} {rest : List (Block β)} {start : Nat}
    (hn : Numbered (b :: rest) start) : b.sequence = start ∧ Numbered rest (start + 1) := by
  unfold Numbered at hn ⊢
  simp only [List.map_cons, List.length_cons, List.range'_succ, List.cons.injEq] at hn
  exact hn

theorem frameBlocks_roundtrip (codec : Codec) (hcodec : codec.Lawful) (level : Nat) :
    ∀ (blocks : List (Block Bytes)) (start : Nat), Numbered blocks start →
      (frameBlocks ((blocks.map (compressJob codec level)).map Block.payload) start).map
          (decompressJob codec) =
        blocks.map (fun b =>
          { sequence := b.sequence, payload := b.payload, status := Status.Done }) := by
  intro blocks
  induction blocks with
  | nil => intro start _; rfl
  | cons b rest ih =>
    intro start hn
    obtain ⟨hseq, hrest⟩ := hn.cons_inv
    simp only [List.map_cons, frameBlocks, decompressJob_compressJob codec hcodec level b start,
      ih (start + 1) hrest, hseq]

theorem runJobs_no_failure {α β : Type} (threads : Nat) (work : Block α → Block β)
    (schedule : List Nat) (jobs : List (Block α)) (hn : Numbered (jobs.map work) 0)
    (hok : ∀ b ∈ jobs.map work, ¬ b.isFailed) :
    (runJobs threads work schedule jobs).error = none ∧
      (runJobs threads work schedule jobs).pushed = jobs.map work :=
  Sequencer.foldl_perm_no_failure hn hok _ (completionOrder_perm threads work schedule jobs)

theorem LZ4MT_CompressCCtx_ok (codec : Codec) (ctx : LZ4MT_CCtx) (schedule : List Nat)
    (input : Bytes) :
    LZ4MT_CompressCCtx codec ctx schedule input =
      Except.ok (((splitBlocks ctx.blockSize (input.length + 1) input 0).map
        (compressJob codec ctx.level)).map Block.payload) := by
  have hn : Numbered ((splitBlocks ctx.blockSize (input.length + 1) input 0).map
      (compressJob codec ctx.level)) 0 :=
    (splitBlocks_numbered _ _ _ _).map_work _ (compressJob_sequence codec ctx.level)
  obtain ⟨herr, hpushed⟩ := runJobs_no_failure ctx.threads (compressJob codec ctx.level)
    schedule _ hn (by
      intro b hb
      obtain ⟨a, _, rfl⟩ := List.mem_map.1 hb
      exact compressJob_not_failed codec ctx.level a)
  unfold LZ4MT_CompressCCtx compressRun
  simp only [herr, hpushed]

theorem LZ4MT_DecompressDCtx_ok (codec : Codec) (hcodec : codec.Lawful) (level : Nat)
    (ctx : LZ4MT_DCtx) (schedule : List Nat) (blocks : List (Block Bytes))
    (hn : Numbered blocks 0) :
    LZ4MT_DecompressDCtx codec ctx schedule
        ((blocks.map (compressJob codec level)).map Block.payload) =
      Except.ok (blocks.map Block.payload).flatten := by
  have hrt := frameBlocks_roundtrip codec hcodec level blocks 0 hn
  have hn2 : Numbered ((frameBlocks ((blocks.map (compressJob codec level)).map
      Block.payload) 0).map (decompressJob codec)) 0 :=
    (frameBlocks_numbered _ _).map_work _ (decompressJob_sequence codec)
  obtain ⟨herr, hpushed⟩ := runJobs_no_failure ctx.threads (decompressJob codec)
    schedule _ hn2 (by
      intro b hb
      rw [hrt] at hb
      obtain ⟨a, _, rfl⟩ := List.mem_map.1 hb
      rintro ⟨code, h⟩
      simp at h)
  unfold LZ4MT_DecompressDCtx decompressRun
  simp only [herr, hpushed, hrt]
  congr 2
  rw [List.map_map]
  rfl

theorem storeCodec_lawful : storeCodec.Lawful :=
  ⟨fun _ _ => rfl, fun _ _ => Nat.le_refl _⟩

theorem SeqInv.sequence_range {β : Type} {bs : List (Block β)} {s : Sequencer β}
    (hn : Numbered bs 0) (hinv : SeqInv bs s) :
    s.pushed.map Block.sequence = List.range s.next := by
  rw [hinv.pushed_eq, List.map_take, hn, ← List.range_eq_range', List.take_range,
    Nat.min_eq_left hinv.next_le]

/-! ## C1: round trip through the engine -/

/-- Claim C1. With a codec whose block decompression undoes its block compression
within the worst-case bound, for every input, every thread count in `[1, 128]` on
either side, every level in `[1, 9]`, every block size that is positive (given,
or chosen for the level) and every schedule of the workers, the contexts are
created, `LZ4MT_CompressCCtx` produces a stream, and `LZ4MT_DecompressDCtx` on
that stream returns the input byte for byte. The empty input and inputs shorter
than one block are among the inputs. -/
theorem LZ4MT_roundtrip (codec : Codec) (hcodec : codec.Lawful) (autoSize : Nat → Int → Nat)
    (threads dthreads level inputsize blockSizeID : Int)
    (hauto : inputsize = 0 → 0 < autoSize level.toNat blockSizeID)
    (hthreads : 1 ≤ threads ∧ threads ≤ 128) (hdthreads : 1 ≤ dthreads ∧ dthreads ≤ 128)
    (hlevel : 1 ≤ level ∧ level ≤ 9) (hsize : 0 ≤ inputsize)
    (schedule dschedule : List Nat) (input : Bytes) :
    ∃ cctx dctx stream,
      LZ4MT_createCCtx autoSize threads level inputsize blockSizeID = some cctx ∧
      LZ4MT_createDCtx dthreads = some dctx ∧
      LZ4MT_CompressCCtx codec cctx schedule input = Except.ok stream ∧
      LZ4MT_DecompressDCtx codec dctx dschedule stream = Except.ok input := by
  have hc : ¬ (threads < 1 ∨ LZ4MT_THREAD_MAX < threads ∨ level < 1 ∨
      (LZ4MT_LEVEL_MAX : Int) < level ∨ inputsize < 0) := by
    simp only [LZ4MT_THREAD_MAX, LZ4MT_LEVEL_MAX]
    omega
  have hd : ¬ (dthreads < 1 ∨ LZ4MT_THREAD_MAX < dthreads) := by
    simp only [LZ4MT_THREAD_MAX]
    omega
  refine ⟨_, _, _, by rw [LZ4MT_createCCtx, if_neg hc], by rw [LZ4MT_createDCtx, if_neg hd],
    LZ4MT_CompressCCtx_ok codec _ schedule input, ?_⟩
  rw [LZ4MT_DecompressDCtx_ok codec hcodec _ _ dschedule _ (splitBlocks_numbered _ _ _ _)]
  congr 1
  apply splitBlocks_flatten _ _ _ _ _ (Nat.lt_succ_self _)
  show 0 < (if inputsize = 0 then autoSize level.toNat blockSizeID else inputsize.toNat)
  split_ifs with h
  · exact hauto h
  · omega

/-- Instance of C1: nine bytes in blocks of four, three compression threads and
two decompression threads. -/
theorem LZ4MT_roundtrip_witness :
    ((1 : Int) ≤ 3 ∧ (3 : Int) ≤ 128) ∧ ((1 : Int) ≤ 2 ∧ (2 : Int) ≤ 128) ∧
    ∃ cctx dctx stream,
      LZ4MT_createCCtx (fun _ _ => 4) 3 1 0 0 = some cctx ∧
      LZ4MT_createDCtx 2 = some dctx ∧
      LZ4MT_CompressCCtx storeCodec cctx [0, 1, 2, 1, 0] [1, 2, 3, 4, 5, 6, 7, 8, 9] =
        Except.ok stream ∧
      LZ4MT_DecompressDCtx storeCodec dctx [1, 0, 0] stream =
        Except.ok [1, 2, 3, 4, 5, 6, 7, 8, 9] :=
  ⟨⟨by decide, by decide⟩, ⟨by decide, by decide⟩,
    LZ4MT_roundtrip storeCodec storeCodec_lawful (fun _ _ => 4) 3 2 1 0 0
      (fun _ => Nat.succ_pos 3) ⟨by decide, by decide⟩ ⟨by decide, by decide⟩ ⟨by decide, by decide⟩ (by decide)
      [0, 1, 2, 1, 0] [1, 0, 0] [1, 2, 3, 4, 5, 6, 7, 8, 9]⟩

/-! ## C2: order of emission -/

/-- Claim C2. Whatever the thread count and the order in which the workers finish
their blocks, a compression run hands the frames of all blocks to the write
callback in input order, their sequence numbers being 0, 1, 2, ... without a gap,
and the same holds when the blocks reach the sequencer in any other order; a
decompression run hands over the first `next` decoded blocks in input order,
again numbered 0, 1, 2, ...; both lists of numbers are strictly increasing. -/
theorem emission_in_sequence_order (codec : Codec) (cctx : LZ4MT_CCtx) (dctx : LZ4MT_DCtx)
    (schedule : List Nat) (input : Bytes) (stream : List Frame) :
    (compressRun codec cctx schedule input).pushed =
        (splitBlocks cctx.blockSize (input.length + 1) input 0).map
          (compressJob codec cctx.level) ∧
    (compressRun codec cctx schedule input).pushed.map Block.sequence =
        List.range (compressRun codec cctx schedule input).pushed.length ∧
    (∀ order : List (Block Frame),
      List.Perm order ((splitBlocks cctx.blockSize (input.length + 1) input 0).map
          (compressJob codec cctx.level)) →
      (order.foldl Sequencer.complete Sequencer.init).pushed =
        (splitBlocks cctx.blockSize (input.length + 1) input 0).map
          (compressJob codec cctx.level)) ∧
    (decompressRun codec dctx schedule stream).pushed =
        ((frameBlocks stream 0).map (decompressJob codec)).take
          (decompressRun codec dctx schedule stream).next ∧
    (decompressRun codec dctx schedule stream).pushed.map Block.sequence =
        List.range (decompressRun codec dctx schedule stream).next ∧
    ((compressRun codec cctx schedule input).pushed.map Block.sequence).Pairwise (· < ·) ∧
    ((decompressRun codec dctx schedule stream).pushed.map Block.sequence).Pairwise (· < ·) := by
  have hn1 : Numbered ((splitBlocks cctx.blockSize (input.length + 1) input 0).map
      (compressJob codec cctx.level)) 0 :=
    (splitBlocks_numbered _ _ _ _).map_work _ (compressJob_sequence codec cctx.level)
  have hn2 : Numbered ((frameBlocks stream 0).map (decompressJob codec)) 0 :=
    (frameBlocks_numbered _ _).map_work _ (decompressJob_sequence codec)
  have hok : ∀ b ∈ (splitBlocks cctx.blockSize (input.length + 1) input 0).map
      (compressJob codec cctx.level), ¬ b.isFailed := by
    intro b hb
    obtain ⟨a, _, rfl⟩ := List.mem_map.1 hb
    exact compressJob_not_failed codec cctx.level a
  obtain ⟨_, hpushed⟩ := runJobs_no_failure cctx.threads (compressJob codec cctx.level)
    schedule _ hn1 hok
  obtain ⟨hinv2, _⟩ := runJobs_spec dctx.threads (decompressJob codec) schedule _ hn2
  have h1 : (compressRun codec cctx schedule input).pushed.map Block.sequence =
      List.range (compressRun codec cctx schedule input).pushed.length := by
    unfold compressRun
    rw [hpushed, hn1, ← List.range_eq_range']
  have h2 : (decompressRun codec dctx schedule stream).pushed.map Block.sequence =
      List.range (decompressRun codec dctx schedule stream).next :=
    hinv2.sequence_range hn2
  refine ⟨hpushed, h1, ?_, hinv2.pushed_eq, h2, ?_, ?_⟩
  · intro order hperm
    exact (Sequencer.foldl_perm_no_failure hn1 hok order hperm).2
  · rw [h1]; exact List.pairwise_lt_range _
  · rw [h2]; exact List.pairwise_lt_range _

/-- Instance of C2: the three blocks of a nine-byte input, completed last block
first, are pushed first block first. -/
theorem emission_in_sequence_order_witness :
    ((([2, 1, 0].map fun i =>
        compressJob storeCodec 1
          { sequence := i, payload := ([1, 2, 3, 4, 5, 6, 7, 8, 9].drop (4 * i)).take 4,
            status := Status.Pending }).foldl
        Sequencer.complete Sequencer.init).pushed.map Block.sequence) = [0, 1, 2] := by
  have h := (emission_in_sequence_order storeCodec ⟨3, 1, 4⟩ ⟨2⟩ [] [1, 2, 3, 4, 5, 6, 7, 8, 9]
    []).2.2.1
    ([2, 1, 0].map fun i =>
        compressJob storeCodec 1
          { sequence := i, payload := ([1, 2, 3, 4, 5, 6, 7, 8, 9].drop (4 * i)).take 4,
            status := Status.Pending })
    (by decide)
  rw [h]
  decide

/-! ## C3: the generic check of parameters -/

/-- Claim C3. For every level and thread count left by option parsing, and bounds
with `LEVEL_MIN ≤ LEVEL_MAX`, the generic check of `main` leaves the level in
`[LEVEL_MIN, LEVEL_MAX]` and the thread count in `[1, 128]`; a value already in
range is unchanged, a value below the range becomes the lower bound and a value
above it the upper bound. -/
theorem check_params_clamps (LEVEL_MIN LEVEL_MAX : Int) (p : Params)
    (h : LEVEL_MIN ≤ LEVEL_MAX) :
    (LEVEL_MIN ≤ (check_params LEVEL_MIN LEVEL_MAX p).opt_level ∧
      (check_params LEVEL_MIN LEVEL_MAX p).opt_level ≤ LEVEL_MAX) ∧
    (1 ≤ (check_params LEVEL_MIN LEVEL_MAX p).opt_threads ∧
      (check_params LEVEL_MIN LEVEL_MAX p).opt_threads ≤ 128) ∧
    (LEVEL_MIN ≤ p.opt_level → p.opt_level ≤ LEVEL_MAX →
      (check_params LEVEL_MIN LEVEL_MAX p).opt_level = p.opt_level) ∧
    (p.opt_level < LEVEL_MIN →
      (check_params LEVEL_MIN LEVEL_MAX p).opt_level = LEVEL_MIN) ∧
    (LEVEL_MAX < p.opt_level →
      (check_params LEVEL_MIN LEVEL_MAX p).opt_level = LEVEL_MAX) ∧
    (1 ≤ p.opt_threads → p.opt_threads ≤ 128 →
      (check_params LEVEL_MIN LEVEL_MAX p).opt_threads = p.opt_threads) ∧
    (p.opt_threads < 1 → (check_params LEVEL_MIN LEVEL_MAX p).opt_threads = 1) ∧
    (128 < p.opt_threads → (check_params LEVEL_MIN LEVEL_MAX p).opt_threads = 128) := by
  simp only [check_params, THREAD_MAX, LZ4MT_THREAD_MAX]
  refine ⟨⟨?_, ?_⟩, ⟨?_, ?_⟩, ?_, ?_, ?_, ?_, ?_, ?_⟩
  all_goals split_ifs <;> intros <;> omega

/-- Instance of C3 at level 99 and thread count 0 with level bounds 1 and 22. -/
theorem check_params_clamps_witness :
    (1 : Int) ≤ 22 ∧
    (check_params 1 22 ⟨99, 0, 1⟩).opt_level = 22 ∧
    (check_params 1 22 ⟨99, 0, 1⟩).opt_threads = 1 :=
  ⟨by decide,
   (check_params_clamps 1 22 ⟨99, 0, 1⟩ (by decide)).2.2.2.2.1 (by decide),
   (check_params_clamps 1 22 ⟨99, 0, 1⟩ (by decide)).2.2.2.2.2.2.1 (by decide)⟩

/-! ## C4: the write callback -/

/-- Claim C4, refuted as stated: a write that stores 3 of the 10 requested bytes
still makes `WriteData` return 0. -/
theorem WriteData_short_write_returns_zero :
    (3 : Nat) < (MT_Buffer.mk [1, 2, 3, 4, 5, 6, 7, 8, 9, 10] 10).size ∧
    (WriteData 3 (MT_Buffer.mk [1, 2, 3, 4, 5, 6, 7, 8, 9, 10] 10) 0).ret = 0 := by
  decide

/-- Claim C4, amended: whatever the underlying write did, `WriteData` returns 0,
stores the number of bytes written in `out->size`, leaves the data untouched and
adds that number to `bytes_written`. -/
theorem WriteData_always_zero (done : Nat) (out : MT_Buffer) (bytes_written : Nat) :
    (WriteData done out bytes_written).ret = 0 ∧
    (WriteData done out bytes_written).buffer.size = done ∧
    (WriteData done out bytes_written).buffer.buf = out.buf ∧
    (WriteData done out bytes_written).counter = (bytes_written + done) % 2 ^ 64 := by
  simp [WriteData, SIZE_MOD]

/-! ## C5: the force option and the overwrite check -/

/-- Claim C5 at a failing input. With `opt_force = 1`, an existing output
`a.lz4` and the reply `n` on standard input, the overwrite check reads the reply
and yields 0, and `treat_file` skips the file: the output is not opened for
writing and `exit_code` becomes `E_WARNING`. -/
theorem treat_file_force_still_asks :
    forcedCompress.opt_force = 1 ∧
    check_overwrite existingOutput.probe forcedCompress.stdin = some (0, "\n".toList) ∧
    (treat_file ".lz4".toList forcedCompress "a".toList existingOutput).map
        (fun t => (t.fn2, t.skipped, t.created, t.globals.exit_code)) =
      some (some "a.lz4".toList, true, false, E_WARNING) := by
  decide

/-! ## C6: the exit code after an error -/

/-- Claim C6 at a failing input. The first file fails with an error message and
sets `exit_code` to `E_ERROR`; the second file is skipped at the overwrite
question and the program exits with `E_WARNING`. -/
theorem exit_code_error_overwritten_by_warning :
    (treat_file ".lz4".toList compressStart "a".toList unreadableInput).map
        (fun t => (t.globals.errmsg, t.globals.exit_code)) =
      some (some "Opening infile failed.", E_ERROR) ∧
    main_exit_code ".lz4".toList compressStart
        [("a".toList, unreadableInput), ("b".toList, existingOutput)] =
      some E_WARNING := by
  decide

/-! ## C7: suffix round trip -/

theorem fn2_size_of_lt (f : List Char) (h : f.length + 10 < 2 ^ 31) :
    fn2_size f = f.length + 11 := by
  unfold fn2_size toSize
  simp only [strlen, toInt32_of_lt _ h]
  have h1 : (((f.length + 10 : Nat) : Int) + 1) % 2 ^ 64 = ((f.length + 11 : Nat) : Int) := by
    rw [Int.emod_eq_of_lt (by omega) (by omega)]
    push_cast
    ring
  rw [h1]
  exact Int.toNat_ofNat _

/-- The part of claim C7 that the code keeps: for a suffix of at most 10
characters (the empty one included) and a file name that leaves room for it in
an `int`, `add_suffix` writes `f ++ s` into `fn2`, the name has the suffix, and
`remove_suffix` gives back exactly `f`. -/
theorem remove_suffix_add_suffix_of_fits (f s : List Char) (hs : s.length ≤ 10)
    (hlen : f.length + 21 < 2 ^ 31) :
    add_suffix s f (fn2_size f) = some (f ++ s) ∧
    has_suffix (f ++ s) s = 1 ∧
    remove_suffix s (f ++ s) (fn2_size (f ++ s)) = some f := by
  have hcap : fn2_size f = f.length + 11 := fn2_size_of_lt f (by omega)
  have hcap2 : fn2_size (f ++ s) = f.length + s.length + 11 := by
    rw [fn2_size_of_lt (f ++ s) (by rw [List.length_append]; omega), List.length_append]
  have hf : toInt32 (strlen (f ++ s)) = ((f.length + s.length : Nat) : Int) := by
    rw [strlen, List.length_append]; exact toInt32_of_lt _ (by omega)
  have hsx : toInt32 (strlen s) = (s.length : Int) := by
    rw [strlen]; exact toInt32_of_lt _ (by omega)
  have hsub : (((f.length + s.length : Nat) : Int) - (s.length : Int)).toNat = f.length := by
    omega
  have hhas : has_suffix (f ++ s) s = 1 := by
    unfold has_suffix
    simp only [hf, hsx, hsub]
    rw [if_neg (by omega)]
    simp [strcmp_self]
  refine ⟨?_, hhas, ?_⟩
  · unfold add_suffix strcat
    rw [hcap, if_neg (by omega)]
    simp only [List.length_nil, List.nil_append]
    rw [if_pos (by omega)]
    simp only
    rw [if_pos (by omega)]
  · unfold remove_suffix strcpy
    simp only [hhas, hf, hsx, hsub, hcap2]
    rw [if_pos (by decide), if_pos (by rw [List.length_append]; omega)]
    simp

/-- Claim C7 at a failing input. With the suffix of 44 characters given by `-S`
and the file name `a`, the buffer `fn2` has 12 bytes while the name with its
suffix needs 46: the second `strcat` of `add_suffix` writes past the end of
`fn2`, so no output name is computed and `treat_file` has no defined result. -/
theorem add_suffix_overflows_fn2 :
    longSuffix.length = 44 ∧
    fn2_size "a".toList = 12 ∧
    add_suffix longSuffix "a".toList (fn2_size "a".toList) = none ∧
    treat_file longSuffix compressStart "a".toList freshOutput = none := by
  decide

end Zstdmt
